import Mathlib

/-!
Verification of the archestra repository's specification against its code.

Part I embeds the vault-path guard logic of
`src/platform/backend/src/routes/team-vault-folder.ts` (pure string checks,
transcribed from the source).  JavaScript strings are modelled as `List Char`.

Part II embeds the Entity Lifecycle Consistency Engine (versioned entity
store, relationship migrator, reference-counted cascade deleter, transaction
coordinator).  The engine's implementation is not part of the source tree
(only its end-to-end tests and callers are), so those definitions are
modelled from the spec, as marked in their doc comments.
-/

/-! ## Part I: vault-path guards (from `team-vault-folder.ts`) -/

/-- JavaScript strings, modelled as lists of characters. -/
abbrev JsString := List Char

/-- JavaScript `s.startsWith(pre)`. -/
def jsStartsWith (s pre : JsString) : Bool := decide (pre <+: s)

/-- JavaScript `s.endsWith(suf)`. -/
def jsEndsWith (s suf : JsString) : Bool := decide (suf <:+ s)

/-- JavaScript `s.includes(sub)` (substring containment). -/
def jsIncludes (s sub : JsString) : Bool := decide (sub <:+: s)

/-- JavaScript `s.replace(/\/+$/, "")`: strip every trailing `'/'`. -/
def stripTrailingSlashes (s : JsString) : JsString :=
  (s.reverse.dropWhile (fun c => c = '/')).reverse

/-- The path guard of the `SetTeamVaultFolder` route
(`team-vault-folder.ts` lines 181-193): the request is rejected with a 400
error when the supplied path contains `".."`, starts with `"/"`, or ends
with `"/"`. -/
def setVaultFolderPathRejected (vaultPath : JsString) : Bool :=
  jsIncludes vaultPath ['.', '.'] ||
  jsStartsWith vaultPath ['/'] ||
  jsEndsWith vaultPath ['/']

/-- The path guard of the `CheckTeamVaultFolderConnectivity` route
(`team-vault-folder.ts` lines 316-325), transcribed from its own code site. -/
def connectivityPathRejected (pathToTest : JsString) : Bool :=
  jsIncludes pathToTest ['.', '.'] ||
  jsStartsWith pathToTest ['/'] ||
  jsEndsWith pathToTest ['/']

/-- Observable outcome of the `SetTeamVaultFolder` handler from the path
guard on: either the path is stored (the `upsert` call) or a 400 error is
raised and no upsert occurs. -/
inductive SetFolderOutcome
  | stored (vaultPath : JsString)
  | badRequest (code : Nat)
deriving DecidableEq, Repr

/-- The `SetTeamVaultFolder` handler from the path guard on
(`team-vault-folder.ts` lines 181-194). -/
def setTeamVaultFolder (vaultPath : JsString) : SetFolderOutcome :=
  if setVaultFolderPathRejected vaultPath then .badRequest 400
  else .stored vaultPath

/-- The `CheckTeamVaultFolderConnectivity` handler from the path guard on
(`team-vault-folder.ts` lines 316-329): either the guard rejects with 400 or
the path is passed to `checkFolderConnectivity`. -/
def checkConnectivityGuard (pathToTest : JsString) : SetFolderOutcome :=
  if connectivityPathRejected pathToTest then .badRequest 400
  else .stored pathToTest

/-- Whether the requested secret path lies within the team's vault folder,
as computed by the `GetTeamVaultSecretKeys` handler
(`team-vault-folder.ts` lines 427-435): both paths are normalized by
stripping trailing slashes and the secret path must equal the folder path or
extend it across a `'/'` boundary. -/
def isWithinFolder (vaultPath secretPath : JsString) : Bool :=
  let normalizedVaultPath := stripTrailingSlashes vaultPath
  let normalizedSecretPath := stripTrailingSlashes secretPath
  decide (normalizedSecretPath = normalizedVaultPath) ||
  jsStartsWith normalizedSecretPath (normalizedVaultPath ++ ['/'])

/-- Observable outcome of the `GetTeamVaultSecretKeys` handler from the
containment check on: either the secret at the requested path is fetched
(the `getSecretFromPath` call) or a 403 error is raised before any secret is
accessed. -/
inductive SecretKeysOutcome
  | fetched (secretPath : JsString)
  | forbidden (code : Nat)
deriving DecidableEq, Repr

/-- The `GetTeamVaultSecretKeys` handler from the containment check on
(`team-vault-folder.ts` lines 427-447).  Note the fetch uses the original
(unnormalized) `secretPath`. -/
def getTeamVaultSecretKeys (vaultPath secretPath : JsString) : SecretKeysOutcome :=
  if isWithinFolder vaultPath secretPath then .fetched secretPath
  else .forbidden 403

/-! ## Part II-A: reference-counted cascade deleter

The cascade deleter's implementation is not in the source tree; only its
test callers are (`src/unnamed/part_001`, exercising
`MemberModel.deleteByMemberOrUserId`).  The definitions below are modelled
from the spec, §3 (data model) and §4.3 (contract). -/

/-- Modelled from the spec: an OwnershipLink (e.g. an organization
membership) links an Owner (identified by `ownerId`) to a scope. -/
structure OwnershipLink where
  id : Nat
  ownerId : Nat
  scopeId : Nat
deriving DecidableEq, Repr

/-- Modelled from the spec: an ExclusiveDependent (e.g. a session) is owned
by exactly one Owner and never outlives it. -/
structure ExclusiveDependent where
  id : Nat
  ownerId : Nat
deriving DecidableEq, Repr

/-- Modelled from the spec: the relational state seen by the cascade
deleter — Owners (by id), OwnershipLinks and ExclusiveDependents. -/
structure OStore where
  owners : List Nat
  links : List OwnershipLink
  dependents : List ExclusiveDependent
deriving DecidableEq, Repr

/-- Error kinds of the engine (spec §7). -/
inductive EngineError
  | NotFound
  | DuplicateKey
  | TxAborted
deriving DecidableEq, Repr

/-- All OwnershipLinks of one Owner. -/
def ownerLinks (s : OStore) (o : Nat) : List OwnershipLink :=
  s.links.filter (fun x => x.ownerId = o)

/-- Modelled from the spec: §4.3 step 1 — `linkIdentifier` may be a direct
link id or the owner's id scoped to `scopeId`; link-id lookup is tried
first, then the owner-id+scope fallback. -/
def resolveLink (s : OStore) (ident scopeId : Nat) : Option OwnershipLink :=
  match s.links.find? (fun x => x.id = ident) with
  | some l => some l
  | none => s.links.find? (fun x => x.ownerId = ident ∧ x.scopeId = scopeId)

/-- The link rows left after deleting link `l` (spec §4.3 step 2). -/
def linksAfterDelete (s : OStore) (l : OwnershipLink) : List OwnershipLink :=
  s.links.filter (fun x => x.id ≠ l.id)

/-- The re-queried count of the Owner's remaining links after the delete
(spec §4.3 step 3, computed on the post-delete rows inside the same
transaction). -/
def remainingCount (s : OStore) (l : OwnershipLink) : Nat :=
  ((linksAfterDelete s l).filter (fun x => x.ownerId = l.ownerId)).length

/-- Modelled from the spec: §4.3 `deleteOwnershipLink` — resolve the
identifier, delete the link, re-count the owner's remaining links, and if
zero delete the Owner and all its ExclusiveDependents; returns the deleted
link. -/
def deleteOwnershipLink (s : OStore) (ident scopeId : Nat) :
    Except EngineError (OwnershipLink × OStore) :=
  match resolveLink s ident scopeId with
  | none => .error .NotFound
  | some l =>
    if remainingCount s l = 0 then
      .ok (l, ⟨s.owners.filter (fun x => x ≠ l.ownerId),
               linksAfterDelete s l,
               s.dependents.filter (fun d => d.ownerId ≠ l.ownerId)⟩)
    else
      .ok (l, ⟨s.owners, linksAfterDelete s l, s.dependents⟩)

/-- Well-formedness of the cascade deleter's state: link ids are unique,
owner ids are unique, and every link's owner exists. -/
def OWf (s : OStore) : Prop :=
  (s.links.map (fun x => x.id)).Nodup ∧
  s.owners.Nodup ∧
  (∀ l ∈ s.links, l.ownerId ∈ s.owners)

/-! ## Part II-B: versioned entity store and relationship migrator

The versioned entity store's implementation is not in the source tree;
only its end-to-end tests are
(`src/platform/e2e-tests/tests/api/prompts.spec.ts`).  The definitions
below are modelled from the spec, §3 (data model), §4.1 and §4.2. -/

/-- Modelled from the spec: a logical key — a stable business name plus a
type discriminator (e.g. "system" vs "regular"). -/
structure LKey where
  name : String
  kind : String
deriving DecidableEq, Repr

/-- Modelled from the spec: one immutable version row of a logical
entity. -/
structure EntityVersion where
  id : Nat
  logicalKey : LKey
  version : Nat
  content : String
  isActive : Bool
deriving DecidableEq, Repr

/-- Modelled from the spec: a relationship row linking a consumer entity
(an agent) to a specific `EntityVersion` id, tagged with a slot. -/
structure Relationship where
  consumerId : Nat
  slot : String
  versionId : Nat
deriving DecidableEq, Repr

/-- Modelled from the spec: the relational state seen by the versioned
entity store — version rows, relationship rows and the id allocator. -/
structure VStore where
  versions : List EntityVersion
  relationships : List Relationship
  nextId : Nat
deriving DecidableEq, Repr

/-- All version rows of one logical key, in row order. -/
def keyVersions (s : VStore) (k : LKey) : List EntityVersion :=
  s.versions.filter (fun v => v.logicalKey = k)

/-- The current active version of a logical key, if any. -/
def findActive (s : VStore) (k : LKey) : Option EntityVersion :=
  s.versions.find? (fun v => v.logicalKey = k ∧ v.isActive = true)

/-- Modelled from the spec: §4.2 `migrate(oldVersionId, newVersionId)` —
every relationship row whose target is the old version id is repointed to
the new id, preserving `consumerId` and `slot`; multi-valued slots are
migrated row by row, not just the first match. -/
def migrate (rels : List Relationship) (oldId newId : Nat) : List Relationship :=
  rels.map (fun r => if r.versionId = oldId then { r with versionId := newId } else r)

/-- Modelled from the spec: §4.1 `createInitial(logicalKey, content)` —
fails with `DuplicateKey` when an active version already exists for the
key; otherwise inserts version 1 with `isActive = true`. -/
def createInitial (s : VStore) (k : LKey) (content : String) :
    Except EngineError (EntityVersion × VStore) :=
  match findActive s k with
  | some _ => .error .DuplicateKey
  | none =>
    let nv : EntityVersion := ⟨s.nextId, k, 1, content, true⟩
    .ok (nv, ⟨s.versions ++ [nv], s.relationships, s.nextId + 1⟩)

/-- Set `isActive := false` on the version row with the given id. -/
def deactivate (versions : List EntityVersion) (i : Nat) : List EntityVersion :=
  versions.map (fun v => if v.id = i then { v with isActive := false } else v)

/-- Modelled from the spec: §4.1 `createNextVersion(logicalKey,
contentDelta)` — fails with `NotFound` when no active version exists;
otherwise, in one transaction, inserts a row numbered `V.version + 1` with
merged content (an omitted delta inherits the old content, `isActive =
true`), deactivates the old active row, and migrates every relationship
from the old row's id to the new row's id. -/
def createNextVersion (s : VStore) (k : LKey) (delta : Option String) :
    Except EngineError (EntityVersion × VStore) :=
  match findActive s k with
  | none => .error .NotFound
  | some act =>
    let nv : EntityVersion := ⟨s.nextId, k, act.version + 1, delta.getD act.content, true⟩
    .ok (nv, ⟨deactivate s.versions act.id ++ [nv],
              migrate s.relationships act.id s.nextId,
              s.nextId + 1⟩)

/-- Modelled from the spec: `getActive(logicalKey)`. -/
def getActive (s : VStore) (k : LKey) : Except EngineError EntityVersion :=
  match findActive s k with
  | some v => .ok v
  | none => .error .NotFound

/-- Modelled from the spec: `getByVersionId(id)` — returns a specific
historical version row regardless of its active status. -/
def getByVersionId (s : VStore) (i : Nat) : Except EngineError EntityVersion :=
  match s.versions.find? (fun v => v.id = i) with
  | some v => .ok v
  | none => .error .NotFound

/-- Invariant of the versioned entity store: ids are below the allocator
and pairwise distinct; for each row's key, the version numbers in row order
are exactly `1, …, n`, and a row is active precisely when it is the latest
one of its key. -/
def VInv (s : VStore) : Prop :=
  (∀ v ∈ s.versions, v.id < s.nextId) ∧
  (s.versions.map (fun v => v.id)).Nodup ∧
  (∀ v ∈ s.versions,
    (keyVersions s v.logicalKey).map (fun w => w.version)
      = List.range' 1 (keyVersions s v.logicalKey).length ∧
    (v.isActive = true ↔ v.version = (keyVersions s v.logicalKey).length))

/-- The per-key part of the invariant, for an arbitrary key. -/
def KeyInv (s : VStore) (k : LKey) : Prop :=
  (keyVersions s k).map (fun w => w.version)
    = List.range' 1 (keyVersions s k).length ∧
  ∀ v ∈ keyVersions s k,
    (v.isActive = true ↔ v.version = (keyVersions s k).length)

/-- One versioning operation, for reachability traces. -/
inductive VOp
  | init (k : LKey) (content : String)
  | next (k : LKey) (delta : Option String)
deriving DecidableEq, Repr

/-- Apply one operation; a failed operation leaves the store unchanged
(transactional rollback). -/
def applyVOp (s : VStore) (op : VOp) : VStore :=
  match op with
  | .init k c =>
    match createInitial s k c with
    | .ok (_, s') => s'
    | .error _ => s
  | .next k d =>
    match createNextVersion s k d with
    | .ok (_, s') => s'
    | .error _ => s

/-- The empty store. -/
def emptyVStore : VStore := ⟨[], [], 0⟩

/-- Run a trace of versioning operations. -/
def runVOps (s : VStore) (ops : List VOp) : VStore := ops.foldl applyVOp s

/-- Run a sequence of `createNextVersion` calls (failed calls roll back). -/
def runNexts (s : VStore) (calls : List (LKey × Option String)) : VStore :=
  calls.foldl (fun t c =>
    match createNextVersion t c.1 c.2 with
    | .ok (_, t') => t'
    | .error _ => t) s

/-! ## Part II-C: transaction coordinator

Modelled from the spec, §2.4 and §5: every write operation runs its steps
inside one transaction; a failing step aborts and rolls back the whole
operation, so the caller observes either the input state or the fully
committed state. -/

/-- Modelled from the spec: the Transaction Coordinator applies the steps
of a write operation in order to a working copy of the state; any failing
step aborts the transaction. -/
def runTransaction {σ : Type} (s : σ) : List (σ → Option σ) → Option σ
  | [] => some s
  | st :: rest =>
    match st s with
    | none => none
    | some s1 => runTransaction s1 rest

/-- The state visible after the transaction returns: the committed state on
success, the unchanged input state after a rollback. -/
def commitOrRollback {σ : Type} (s : σ) (steps : List (σ → Option σ)) : σ :=
  (runTransaction s steps).getD s

/-- A transaction step with injected failure: when `fail` is set the step
fails (e.g. a statement timeout or lost connection), otherwise it applies
its effect. -/
def txStep {σ : Type} (fail : Bool) (f : σ → σ) : σ → Option σ :=
  fun s => if fail then none else some (f s)

/-- Step 1 of `createNextVersion` as a transaction: insert the new version
row and advance the id allocator. -/
def insertVersionStep (nv : EntityVersion) (s : VStore) : VStore :=
  ⟨s.versions ++ [nv], s.relationships, s.nextId + 1⟩

/-- Step 2: deactivate the superseded row. -/
def deactivateStep (i : Nat) (s : VStore) : VStore :=
  ⟨deactivate s.versions i, s.relationships, s.nextId⟩

/-- Step 3: migrate the relationship rows. -/
def migrateStep (oldId newId : Nat) (s : VStore) : VStore :=
  ⟨s.versions, migrate s.relationships oldId newId, s.nextId⟩

/-- `createNextVersion` run through the Transaction Coordinator with
failure injection on each of its three steps; the result is the state
visible to the caller afterwards. -/
def nextVersionTx (s : VStore) (k : LKey) (d : Option String)
    (f1 f2 f3 : Bool) : VStore :=
  match findActive s k with
  | none => s
  | some act =>
    commitOrRollback s
      [txStep f1 (insertVersionStep
          ⟨s.nextId, k, act.version + 1, d.getD act.content, true⟩),
       txStep f2 (deactivateStep act.id),
       txStep f3 (migrateStep act.id s.nextId)]

/-- Step 1 of `deleteOwnershipLink` as a transaction: delete the resolved
link row. -/
def deleteLinkStep (l : OwnershipLink) (t : OStore) : OStore :=
  ⟨t.owners, linksAfterDelete t l, t.dependents⟩

/-- Step 2: re-check the owner's remaining link count on the working state
(inside the same transaction) and delete the owner when it reaches zero. -/
def ownerDeleteStep (l : OwnershipLink) (t : OStore) : OStore :=
  if (ownerLinks t l.ownerId).length = 0 then
    ⟨t.owners.filter (fun x => x ≠ l.ownerId), t.links, t.dependents⟩
  else t

/-- Step 3: delete the owner's exclusive dependents when the owner was
deleted (same zero-count condition, re-read from the working state). -/
def dependentsDeleteStep (l : OwnershipLink) (t : OStore) : OStore :=
  if (ownerLinks t l.ownerId).length = 0 then
    ⟨t.owners, t.links, t.dependents.filter (fun d => d.ownerId ≠ l.ownerId)⟩
  else t

/-- `deleteOwnershipLink` run through the Transaction Coordinator with
failure injection on each of its three steps. -/
def deleteLinkTx (t : OStore) (ident scopeId : Nat) (g1 g2 g3 : Bool) : OStore :=
  match resolveLink t ident scopeId with
  | none => t
  | some l =>
    commitOrRollback t
      [txStep g1 (deleteLinkStep l),
       txStep g2 (ownerDeleteStep l),
       txStep g3 (dependentsDeleteStep l)]

/-! ## Theorems -/

/-- If the images under `f` of a list's elements are pairwise distinct, then
`find?` for the image of a member returns exactly that member. -/
theorem find?_eq_some_of_mem_of_nodup_map {α β : Type} [DecidableEq β] (f : α → β)
    (l : List α) (a : α) (h : (l.map f).Nodup) (ha : a ∈ l) :
    l.find? (fun x => f x = f a) = some a := by
  induction l with
  | nil => cases ha
  | cons b t ih =>
    simp only [List.map_cons, List.nodup_cons] at h
    rcases List.mem_cons.mp ha with rfl | hmem
    · exact List.find?_cons_of_pos _ (by simp)
    · have hne : ¬ f b = f a := fun he => h.1 (he ▸ List.mem_map_of_mem f hmem)
      rw [List.find?_cons_of_neg _ (by simpa using hne)]
      exact ih h.2 hmem

/-- If filtering `l` by `p` yields exactly `[a]`, and `q` implies `p` on
`l` and holds at `a`, then `find? q` returns `a`. -/
theorem find?_of_filter_eq_singleton {α : Type} (p q : α → Bool) {l : List α} {a : α}
    (hpq : ∀ x ∈ l, q x = true → p x = true) (hq : q a = true)
    (hf : l.filter p = [a]) : l.find? q = some a := by
  induction l with
  | nil => simp at hf
  | cons b t ih =>
    by_cases hpb : p b = true
    · rw [List.filter_cons_of_pos hpb] at hf
      obtain ⟨rfl, hrest⟩ : b = a ∧ t.filter p = [] := by
        injection hf with h1 h2
        exact ⟨h1, h2⟩
      by_cases hqb : q b = true
      · exact List.find?_cons_of_pos _ hqb
      · exact absurd hq hqb
    · rw [List.filter_cons_of_neg (by simpa using hpb)] at hf
      have hqb : ¬ q b = true := fun hqb => hpb (hpq b (List.mem_cons_self _ _) hqb)
      rw [List.find?_cons_of_neg _ hqb]
      exact ih (fun x hx => hpq x (List.mem_cons_of_mem b hx)) hf

/-- A nonempty list with pairwise-distinct keys whose elements all equal `a`
is exactly `[a]`. -/
theorem eq_singleton_of_all_eq {α : Type} {l : List α} {a : α}
    (hnd : l.Nodup) (ha : a ∈ l) (hall : ∀ x ∈ l, x = a) : l = [a] := by
  cases l with
  | nil => cases ha
  | cons b t =>
    have hb : b = a := hall b (List.mem_cons_self _ _)
    subst hb
    rcases List.nodup_cons.mp hnd with ⟨hbt, _⟩
    cases t with
    | nil => rfl
    | cons c u =>
      have : c = b := hall c (List.mem_cons_of_mem b (List.mem_cons_self _ _))
      exact absurd (this ▸ (List.mem_cons_self _ _)) hbt

/-- The two filters involved in the remaining-link count commute: counting
an owner's rows among the post-delete rows is filtering the owner's rows by
the deleted id. -/
theorem filter_owner_linksAfterDelete (s : OStore) (l : OwnershipLink) (o : Nat) :
    (linksAfterDelete s l).filter (fun x => x.ownerId = o)
      = (ownerLinks s o).filter (fun x => x.id ≠ l.id) := by
  simp only [linksAfterDelete, ownerLinks, List.filter_filter]
  exact List.filter_congr (fun x _ => Bool.and_comm _ _)

/-- A resolved link is one of the store's link rows. -/
theorem resolveLink_mem {s : OStore} {ident sc : Nat} {l : OwnershipLink}
    (h : resolveLink s ident sc = some l) : l ∈ s.links := by
  rw [resolveLink] at h
  rcases hfind : s.links.find? (fun x => x.id = ident) with _ | l2
  · rw [hfind] at h
    exact List.mem_of_find?_eq_some h
  · rw [hfind] at h
    injection h with h
    exact h ▸ List.mem_of_find?_eq_some hfind

/-- With unique link ids, resolving by a present link's own id returns that
link (the scope argument is not consulted). -/
theorem resolveLink_by_id (s : OStore) (l : OwnershipLink) (sc : Nat)
    (hid : (s.links.map (fun x => x.id)).Nodup) (hl : l ∈ s.links) :
    resolveLink s l.id sc = some l := by
  rw [resolveLink, find?_eq_some_of_mem_of_nodup_map (fun x => x.id) s.links l hid hl]

/-- With unique link ids, the re-queried remaining count is zero exactly
when the deleted link was its owner's only link. -/
theorem remainingCount_zero_iff (s : OStore) (l : OwnershipLink)
    (hid : (s.links.map (fun x => x.id)).Nodup) (hl : l ∈ s.links) :
    remainingCount s l = 0 ↔ ownerLinks s l.ownerId = [l] := by
  have hids : ((ownerLinks s l.ownerId).map (fun x => x.id)).Nodup :=
    hid.sublist ((List.filter_sublist s.links).map _)
  have hmem : l ∈ ownerLinks s l.ownerId := by
    simp [ownerLinks, List.mem_filter, hl]
  rw [remainingCount, filter_owner_linksAfterDelete, List.length_eq_zero]
  constructor
  · intro hnil
    refine eq_singleton_of_all_eq (hids.of_map _) hmem (fun x hx => ?_)
    refine List.inj_on_of_nodup_map hids hx hmem ?_
    have := List.filter_eq_nil_iff.mp hnil x hx
    simpa using this
  · intro he
    rw [he]
    simp

/-- C9: the get-secret-keys route fetches a secret exactly when the
requested `secretPath`, stripped of trailing slashes, equals the team's
vault folder path (also stripped) or starts with that path followed by
`'/'`; every other path is rejected with a 403 error (the only other
outcome), including `"teams/alphabeta"` against folder `"teams/alpha"`. -/
theorem getSecretKeys_containment (vp sp : JsString) :
    (getTeamVaultSecretKeys vp sp = .fetched sp ↔
      stripTrailingSlashes sp = stripTrailingSlashes vp ∨
      (stripTrailingSlashes vp ++ ['/']) <+: stripTrailingSlashes sp) ∧
    (getTeamVaultSecretKeys vp sp = .fetched sp ∨
      getTeamVaultSecretKeys vp sp = .forbidden 403) ∧
    getTeamVaultSecretKeys "teams/alpha".toList "teams/alphabeta".toList
      = .forbidden 403 := by
  refine ⟨?_, ?_, by decide⟩
  · rw [getTeamVaultSecretKeys]
    split
    next h => simp_all [isWithinFolder, jsStartsWith]
    next h => simp_all [isWithinFolder, jsStartsWith]
  · rw [getTeamVaultSecretKeys]
    split
    · exact Or.inl rfl
    · exact Or.inr rfl

/-- C10: the set-vault-folder route stores the supplied path exactly when it
does not contain `".."`, does not start with `"/"`, and does not end with
`"/"`; otherwise it raises a 400 error and performs no upsert, and the
connectivity-check route applies the identical three-condition guard. -/
theorem setVaultFolder_path_validation (p : JsString) :
    (setTeamVaultFolder p = .stored p ↔
      ¬ ['.', '.'] <:+: p ∧ ¬ ['/'] <+: p ∧ ¬ ['/'] <:+ p) ∧
    (setTeamVaultFolder p = .badRequest 400 ↔
      ['.', '.'] <:+: p ∨ ['/'] <+: p ∨ ['/'] <:+ p) ∧
    checkConnectivityGuard p = setTeamVaultFolder p := by
  refine ⟨?_, ?_, rfl⟩
  · rw [setTeamVaultFolder]
    split
    next h =>
      simp_all [setVaultFolderPathRejected, jsIncludes, jsStartsWith, jsEndsWith]
      tauto
    next h =>
      simp_all [setVaultFolderPathRejected, jsIncludes, jsStartsWith, jsEndsWith]
  · rw [setTeamVaultFolder]
    split
    next h =>
      simp_all [setVaultFolderPathRejected, jsIncludes, jsStartsWith, jsEndsWith]
      tauto
    next h =>
      simp_all [setVaultFolderPathRejected, jsIncludes, jsStartsWith, jsEndsWith]

/-- Unfolding `deleteOwnershipLink` when the identifier does not resolve. -/
theorem deleteOwnershipLink_notFound {s : OStore} {ident sc : Nat}
    (hres : resolveLink s ident sc = none) :
    deleteOwnershipLink s ident sc = .error .NotFound := by
  unfold deleteOwnershipLink
  rw [hres]

/-- Unfolding `deleteOwnershipLink` when the identifier resolves to `l`. -/
theorem deleteOwnershipLink_eq_of_resolve {s : OStore} {ident sc : Nat}
    {l : OwnershipLink} (hres : resolveLink s ident sc = some l) :
    deleteOwnershipLink s ident sc =
      if remainingCount s l = 0 then
        .ok (l, ⟨s.owners.filter (fun x => x ≠ l.ownerId),
                 linksAfterDelete s l,
                 s.dependents.filter (fun d => d.ownerId ≠ l.ownerId)⟩)
      else
        .ok (l, ⟨s.owners, linksAfterDelete s l, s.dependents⟩) := by
  unfold deleteOwnershipLink
  rw [hres]

/-- C2: a successful `deleteOwnershipLink` deletes the Owner exactly when
the deleted OwnershipLink was the Owner's last one; in that case all of the
Owner's ExclusiveDependents are deleted (and nobody else's); with another
link remaining, the Owner, the other links and every ExclusiveDependent
survive. -/
theorem cascade_delete_owner_iff_last_link (s s' : OStore) (ident scopeId : Nat)
    (l : OwnershipLink) (hw : OWf s)
    (h : deleteOwnershipLink s ident scopeId = .ok (l, s')) :
    (l.ownerId ∉ s'.owners ↔ ownerLinks s l.ownerId = [l]) ∧
    (ownerLinks s l.ownerId = [l] →
      (∀ d ∈ s'.dependents, d.ownerId ≠ l.ownerId) ∧
      (∀ d ∈ s.dependents, d.ownerId ≠ l.ownerId → d ∈ s'.dependents)) ∧
    (ownerLinks s l.ownerId ≠ [l] →
      s'.owners = s.owners ∧ s'.dependents = s.dependents) ∧
    l ∉ s'.links ∧
    (∀ l2 ∈ s.links, l2.id ≠ l.id → l2 ∈ s'.links) := by
  rcases hres : resolveLink s ident scopeId with _ | l0
  · rw [deleteOwnershipLink_notFound hres] at h
    cases h
  · rw [deleteOwnershipLink_eq_of_resolve hres] at h
    have hmem : l0 ∈ s.links := resolveLink_mem hres
    split at h
    next hrem =>
      simp only [Except.ok.injEq, Prod.mk.injEq] at h
      obtain ⟨rfl, rfl⟩ := h
      have hlast : ownerLinks s l0.ownerId = [l0] :=
        (remainingCount_zero_iff s l0 hw.1 hmem).mp hrem
      refine ⟨?_, ?_, ?_, ?_, ?_⟩
      · simp [hlast, List.mem_filter]
      · intro _
        constructor
        · intro d hd
          have := (List.mem_filter.mp hd).2
          simpa using this
        · intro d hd hne
          exact List.mem_filter.mpr ⟨hd, by simpa using hne⟩
      · intro hc
        exact absurd hlast hc
      · simp [linksAfterDelete, List.mem_filter]
      · intro l2 h2 hne
        exact List.mem_filter.mpr ⟨h2, by simpa using hne⟩
    next hrem =>
      simp only [Except.ok.injEq, Prod.mk.injEq] at h
      obtain ⟨rfl, rfl⟩ := h
      have hnotlast : ¬ ownerLinks s l0.ownerId = [l0] :=
        fun hc => hrem ((remainingCount_zero_iff s l0 hw.1 hmem).mpr hc)
      refine ⟨?_, ?_, ?_, ?_, ?_⟩
      · simp only []
        constructor
        · intro hno
          exact absurd (hw.2.2 l0 hmem) hno
        · intro hc
          exact absurd hc hnotlast
      · intro hc
        exact absurd hc hnotlast
      · intro _
        exact ⟨rfl, rfl⟩
      · simp [linksAfterDelete, List.mem_filter]
      · intro l2 h2 hne
        exact List.mem_filter.mpr ⟨h2, by simpa using hne⟩

/-- C2 witness: a concrete owner with a single link and a session-like
dependent is fully cascaded away. -/
theorem cascade_delete_owner_iff_last_link_witness :
    deleteOwnershipLink ⟨[7], [⟨1, 7, 50⟩], [⟨100, 7⟩]⟩ 1 50
        = .ok (⟨1, 7, 50⟩, ⟨[], [], []⟩) ∧
    ((7 : Nat) ∉ ([] : List Nat) ↔
      ownerLinks ⟨[7], [⟨1, 7, 50⟩], [⟨100, 7⟩]⟩ (7 : Nat) = [⟨1, 7, 50⟩]) := by
  have hw : OWf ⟨[7], [⟨1, 7, 50⟩], [⟨100, 7⟩]⟩ := by
    refine ⟨?_, ?_, ?_⟩ <;> decide
  have h : deleteOwnershipLink ⟨[7], [⟨1, 7, 50⟩], [⟨100, 7⟩]⟩ 1 50
      = .ok (⟨1, 7, 50⟩, ⟨[], [], []⟩) := by rfl
  refine ⟨h, ?_⟩
  have := (cascade_delete_owner_iff_last_link _ _ 1 50 _ hw h).1
  simpa using this

/-- C5: for an owner with exactly one link, `deleteOwnershipLink` has the
identical result whether given the link's own id or the owner's id with the
scope; resolution tries link-id lookup first and falls back to
owner-id+scope lookup, and the call fails with `NotFound` when neither form
resolves. -/
theorem dual_identifier_delete (s : OStore) (o scopeId : Nat) (l : OwnershipLink)
    (hw : OWf s) (hl : ownerLinks s o = [l]) (hsc : l.scopeId = scopeId)
    (hnoclash : ∀ l2 ∈ s.links, l2.id ≠ o) :
    deleteOwnershipLink s l.id scopeId = deleteOwnershipLink s o scopeId ∧
    (∃ s', deleteOwnershipLink s o scopeId = .ok (l, s')) ∧
    (∀ ident sc, resolveLink s ident sc = none →
      deleteOwnershipLink s ident sc = .error .NotFound) ∧
    (∀ ident sc l2, s.links.find? (fun x => x.id = ident) = some l2 →
      resolveLink s ident sc = some l2) ∧
    (∀ ident sc, s.links.find? (fun x => x.id = ident) = none →
      resolveLink s ident sc
        = s.links.find? (fun x => x.ownerId = ident ∧ x.scopeId = sc)) := by
  have hlmem : l ∈ s.links := by
    have : l ∈ ownerLinks s o := by rw [hl]; exact List.mem_cons_self _ _
    exact (List.mem_filter.mp this).1
  have hlowner : l.ownerId = o := by
    have : l ∈ ownerLinks s o := by rw [hl]; exact List.mem_cons_self _ _
    simpa using (List.mem_filter.mp this).2
  have hrid : resolveLink s l.id scopeId = some l :=
    resolveLink_by_id s l scopeId hw.1 hlmem
  have hro : resolveLink s o scopeId = some l := by
    rw [resolveLink]
    have hnone : s.links.find? (fun x => x.id = o) = none := by
      rw [List.find?_eq_none]
      intro x hx
      simpa using hnoclash x hx
    rw [hnone]
    have hl' : s.links.filter (fun x => x.ownerId = o) = [l] := hl
    refine find?_of_filter_eq_singleton
      (fun (x : OwnershipLink) => x.ownerId = o)
      (fun (x : OwnershipLink) => x.ownerId = o ∧ x.scopeId = scopeId)
      (fun x _ hq => ?_) ?_ hl'
    · simp only [decide_eq_true_eq] at hq ⊢
      exact hq.1
    · simp only [decide_eq_true_eq]
      exact ⟨hlowner, hsc⟩
  refine ⟨?_, ?_, ?_, ?_, ?_⟩
  · rw [deleteOwnershipLink_eq_of_resolve hrid, deleteOwnershipLink_eq_of_resolve hro]
  · by_cases hrc : remainingCount s l = 0
    · exact ⟨_, by rw [deleteOwnershipLink_eq_of_resolve hro, if_pos hrc]⟩
    · exact ⟨_, by rw [deleteOwnershipLink_eq_of_resolve hro, if_neg hrc]⟩
  · intro ident sc hres
    exact deleteOwnershipLink_notFound hres
  · intro ident sc l2 hfind
    rw [resolveLink, hfind]
  · intro ident sc hfind
    rw [resolveLink, hfind]

/-- C5 witness: a concrete one-link owner, deleted via the owner-id form. -/
theorem dual_identifier_delete_witness :
    deleteOwnershipLink ⟨[7], [⟨1, 7, 50⟩], []⟩ 1 50
        = deleteOwnershipLink ⟨[7], [⟨1, 7, 50⟩], []⟩ 7 50 ∧
    (∃ s', deleteOwnershipLink ⟨[7], [⟨1, 7, 50⟩], []⟩ 7 50
        = .ok (⟨1, 7, 50⟩, s')) := by
  have hw : OWf ⟨[7], [⟨1, 7, 50⟩], []⟩ := by
    refine ⟨?_, ?_, ?_⟩ <;> decide
  have hl : ownerLinks ⟨[7], [⟨1, 7, 50⟩], []⟩ 7 = [⟨1, 7, 50⟩] := by rfl
  have h := dual_identifier_delete ⟨[7], [⟨1, 7, 50⟩], []⟩ 7 50 ⟨1, 7, 50⟩
    hw hl rfl (by decide)
  exact ⟨h.1, h.2.1⟩

/-- Serialized deletion of an owner's last two links, in the order `la`
then `lb`: the first call keeps the owner, the second one deletes the owner
and its dependents, and both succeed. -/
theorem delete_two_links_aux (s : OStore) (o : Nat) (la lb : OwnershipLink)
    (hid : (s.links.map (fun x => x.id)).Nodup)
    (hla : la ∈ s.links) (hlb : lb ∈ s.links)
    (hoa : la.ownerId = o) (hob : lb.ownerId = o)
    (hfil : (ownerLinks s o).filter (fun x => x.id ≠ la.id) = [lb]) :
    ∃ s1 s2,
      deleteOwnershipLink s la.id la.scopeId = .ok (la, s1) ∧
      deleteOwnershipLink s1 lb.id lb.scopeId = .ok (lb, s2) ∧
      s1.owners = s.owners ∧ o ∉ s2.owners ∧
      (∀ d ∈ s2.dependents, d.ownerId ≠ o) := by
  have hra : resolveLink s la.id la.scopeId = some la :=
    resolveLink_by_id s la la.scopeId hid hla
  have hrc1 : remainingCount s la = 1 := by
    rw [remainingCount, filter_owner_linksAfterDelete, hoa, hfil]
    rfl
  have hrc0 : ¬ remainingCount s la = 0 := by omega
  set s1 : OStore := ⟨s.owners, linksAfterDelete s la, s.dependents⟩ with hs1
  have hstep1 : deleteOwnershipLink s la.id la.scopeId = .ok (la, s1) := by
    rw [deleteOwnershipLink_eq_of_resolve hra, if_neg hrc0]
  have hid1 : (s1.links.map (fun x => x.id)).Nodup :=
    hid.sublist ((List.filter_sublist s.links).map _)
  have hbne : lb.id ≠ la.id := by
    have : lb ∈ (ownerLinks s o).filter (fun x => x.id ≠ la.id) := by
      rw [hfil]; exact List.mem_cons_self _ _
    simpa using (List.mem_filter.mp this).2
  have hlb1 : lb ∈ s1.links := by
    refine List.mem_filter.mpr ⟨hlb, ?_⟩
    simpa using hbne
  have hrb : resolveLink s1 lb.id lb.scopeId = some lb :=
    resolveLink_by_id s1 lb lb.scopeId hid1 hlb1
  have hown1 : ownerLinks s1 o = [lb] := by
    show (linksAfterDelete s la).filter (fun x => x.ownerId = o) = [lb]
    rw [filter_owner_linksAfterDelete, hfil]
  have hrc2 : remainingCount s1 lb = 0 := by
    rw [remainingCount, filter_owner_linksAfterDelete, hob, hown1]
    simp
  set s2 : OStore := ⟨s1.owners.filter (fun x => x ≠ lb.ownerId),
                      linksAfterDelete s1 lb,
                      s1.dependents.filter (fun d => d.ownerId ≠ lb.ownerId)⟩ with hs2
  have hstep2 : deleteOwnershipLink s1 lb.id lb.scopeId = .ok (lb, s2) := by
    rw [deleteOwnershipLink_eq_of_resolve hrb, if_pos hrc2]
  refine ⟨s1, s2, hstep1, hstep2, rfl, ?_, ?_⟩
  · rw [hs2]
    simp [List.mem_filter, hob]
  · intro d hd
    have := (List.mem_filter.mp hd).2
    rw [hob] at this
    simpa using this

/-- C6: when an owner's last two OwnershipLinks are deleted by two
`deleteOwnershipLink` calls running as serialized transactions (in either
order), both calls succeed, the first leaves the Owner in place, and
exactly the second performs the Owner deletion, after which no
ExclusiveDependent of the owner remains. -/
theorem double_delete_race (s : OStore) (o : Nat) (l1 l2 first second : OwnershipLink)
    (hw : OWf s) (ho : o ∈ s.owners) (hl : ownerLinks s o = [l1, l2])
    (horder : (first = l1 ∧ second = l2) ∨ (first = l2 ∧ second = l1)) :
    ∃ s1 s2,
      deleteOwnershipLink s first.id first.scopeId = .ok (first, s1) ∧
      deleteOwnershipLink s1 second.id second.scopeId = .ok (second, s2) ∧
      o ∈ s1.owners ∧ o ∉ s2.owners ∧
      (∀ d ∈ s2.dependents, d.ownerId ≠ o) := by
  have hids : ((ownerLinks s o).map (fun x => x.id)).Nodup :=
    hw.1.sublist ((List.filter_sublist s.links).map _)
  have hne : l1.id ≠ l2.id := by
    rw [hl] at hids
    simpa using (List.nodup_cons.mp hids).1
  have h1 : l1 ∈ ownerLinks s o := by rw [hl]; exact List.mem_cons_self _ _
  have h2 : l2 ∈ ownerLinks s o := by
    rw [hl]; exact List.mem_cons_of_mem _ (List.mem_cons_self _ _)
  have h1mem : l1 ∈ s.links := (List.mem_filter.mp h1).1
  have h2mem : l2 ∈ s.links := (List.mem_filter.mp h2).1
  have h1own : l1.ownerId = o := by simpa using (List.mem_filter.mp h1).2
  have h2own : l2.ownerId = o := by simpa using (List.mem_filter.mp h2).2
  rcases horder with ⟨rfl, rfl⟩ | ⟨rfl, rfl⟩
  · have hne' : second.id ≠ first.id := Ne.symm hne
    have hfil : (ownerLinks s o).filter (fun x => x.id ≠ first.id) = [second] := by
      rw [hl]
      simp [List.filter_cons, hne']
    obtain ⟨s1, s2, ha, hb, howners, hno, hdeps⟩ :=
      delete_two_links_aux s o first second hw.1 h1mem h2mem h1own h2own hfil
    exact ⟨s1, s2, ha, hb, howners ▸ ho, hno, hdeps⟩
  · have hne' : second.id ≠ first.id := hne
    have hfil : (ownerLinks s o).filter (fun x => x.id ≠ first.id) = [second] := by
      rw [hl]
      simp [List.filter_cons, hne']
    obtain ⟨s1, s2, ha, hb, howners, hno, hdeps⟩ :=
      delete_two_links_aux s o first second hw.1 h2mem h1mem h2own h1own hfil
    exact ⟨s1, s2, ha, hb, howners ▸ ho, hno, hdeps⟩

/-- C6 witness: a concrete owner with two links and one dependent, deleted
in the order first link then second link. -/
theorem double_delete_race_witness :
    ∃ s1 s2,
      deleteOwnershipLink ⟨[7], [⟨1, 7, 50⟩, ⟨2, 7, 60⟩], [⟨100, 7⟩]⟩
          (OwnershipLink.mk 1 7 50).id (OwnershipLink.mk 1 7 50).scopeId
        = .ok (⟨1, 7, 50⟩, s1) ∧
      deleteOwnershipLink s1
          (OwnershipLink.mk 2 7 60).id (OwnershipLink.mk 2 7 60).scopeId
        = .ok (⟨2, 7, 60⟩, s2) ∧
      (7 : Nat) ∈ s1.owners ∧ (7 : Nat) ∉ s2.owners ∧
      (∀ d ∈ s2.dependents, d.ownerId ≠ 7) := by
  have hw : OWf ⟨[7], [⟨1, 7, 50⟩, ⟨2, 7, 60⟩], [⟨100, 7⟩]⟩ := by
    refine ⟨?_, ?_, ?_⟩ <;> decide
  exact double_delete_race _ 7 ⟨1, 7, 50⟩ ⟨2, 7, 60⟩ _ _ hw
    (by decide) (by rfl) (Or.inl ⟨rfl, rfl⟩)

/-- Membership in a key's version rows. -/
theorem mem_keyVersions {s : VStore} {k : LKey} {v : EntityVersion} :
    v ∈ keyVersions s k ↔ v ∈ s.versions ∧ v.logicalKey = k := by
  simp [keyVersions, List.mem_filter]

/-- Facts from a successful `findActive`. -/
theorem findActive_some {s : VStore} {k : LKey} {act : EntityVersion}
    (h : findActive s k = some act) :
    act ∈ s.versions ∧ act.logicalKey = k ∧ act.isActive = true := by
  have hmem := List.mem_of_find?_eq_some h
  have hp := List.find?_some h
  simp only [decide_eq_true_eq] at hp
  exact ⟨hmem, hp.1, hp.2⟩

/-- `findActive` misses exactly when no row of the key is active. -/
theorem findActive_none {s : VStore} {k : LKey} (h : findActive s k = none) :
    ∀ v ∈ s.versions, ¬(v.logicalKey = k ∧ v.isActive = true) := by
  intro v hv
  have := List.find?_eq_none.mp h v hv
  simpa using this

/-- The per-key invariant holds for every key under `VInv`. -/
theorem vinv_keyInv {s : VStore} (hinv : VInv s) (k : LKey) : KeyInv s k := by
  rcases hkv : keyVersions s k with _ | ⟨v0, rest⟩
  · constructor
    · rw [hkv]
      rfl
    · intro v hv
      rw [hkv] at hv
      cases hv
  · have hv0 : v0 ∈ keyVersions s k := by
      rw [hkv]
      exact List.mem_cons_self _ _
    have h0 := mem_keyVersions.mp hv0
    constructor
    · have := (hinv.2.2 v0 h0.1).1
      rwa [h0.2] at this
    · intro v hv
      have hm := mem_keyVersions.mp hv
      have := (hinv.2.2 v hm.1).2
      rwa [hm.2] at this

/-- Rows with equal ids are equal under the invariant. -/
theorem vinv_eq_of_id_eq {s : VStore} (hinv : VInv s) {v w : EntityVersion}
    (hv : v ∈ s.versions) (hw : w ∈ s.versions) (h : v.id = w.id) : v = w :=
  List.inj_on_of_nodup_map hinv.2.1 hv hw h

/-- Under the invariant, an existing key always has an active row, so
`findActive` misses exactly on keys with no rows. -/
theorem findActive_none_iff {s : VStore} (hinv : VInv s) (k : LKey) :
    findActive s k = none ↔ keyVersions s k = [] := by
  constructor
  · intro h
    by_contra hne
    have hki := vinv_keyInv hinv k
    have hlen : 0 < (keyVersions s k).length := List.length_pos.mpr hne
    have hmemn : (keyVersions s k).length ∈
        (keyVersions s k).map (fun w => w.version) := by
      rw [hki.1, List.mem_range'_1]
      omega
    obtain ⟨v, hv, hversion⟩ := List.mem_map.mp hmemn
    have hact : v.isActive = true := (hki.2 v hv).mpr hversion
    have hmem := mem_keyVersions.mp hv
    exact findActive_none h v hmem.1 ⟨hmem.2, hact⟩
  · intro h
    rw [findActive, List.find?_eq_none]
    intro v hv
    simp only [decide_eq_true_eq]
    rintro ⟨hk, _⟩
    have : v ∈ keyVersions s k := mem_keyVersions.mpr ⟨hv, hk⟩
    rw [h] at this
    cases this

/-- Under the invariant the active row's number is the key's row count
(it is the latest version). -/
theorem findActive_version {s : VStore} (hinv : VInv s) {k : LKey}
    {act : EntityVersion} (h : findActive s k = some act) :
    act.version = (keyVersions s k).length := by
  obtain ⟨hmem, hk, hact⟩ := findActive_some h
  have hki := vinv_keyInv hinv k
  exact (hki.2 act (mem_keyVersions.mpr ⟨hmem, hk⟩)).mp hact

/-- Unfolding `createInitial` on a key that already has an active row. -/
theorem createInitial_dup {s : VStore} {k : LKey} {c : String} {a : EntityVersion}
    (hf : findActive s k = some a) :
    createInitial s k c = .error .DuplicateKey := by
  unfold createInitial
  rw [hf]

/-- Unfolding `createInitial` on a key with no active row. -/
theorem createInitial_ok {s : VStore} {k : LKey} {c : String}
    (hf : findActive s k = none) :
    createInitial s k c = .ok (⟨s.nextId, k, 1, c, true⟩,
      ⟨s.versions ++ [⟨s.nextId, k, 1, c, true⟩], s.relationships, s.nextId + 1⟩) := by
  unfold createInitial
  rw [hf]

/-- Unfolding `createNextVersion` on a key with no active row. -/
theorem createNextVersion_notFound {s : VStore} {k : LKey} {d : Option String}
    (hf : findActive s k = none) :
    createNextVersion s k d = .error .NotFound := by
  unfold createNextVersion
  rw [hf]

/-- Unfolding `createNextVersion` on a key with active row `act`. -/
theorem createNextVersion_ok {s : VStore} {k : LKey} {d : Option String}
    {act : EntityVersion} (hf : findActive s k = some act) :
    createNextVersion s k d
      = .ok (⟨s.nextId, k, act.version + 1, d.getD act.content, true⟩,
          ⟨deactivate s.versions act.id
              ++ [⟨s.nextId, k, act.version + 1, d.getD act.content, true⟩],
           migrate s.relationships act.id s.nextId,
           s.nextId + 1⟩) := by
  unfold createNextVersion
  rw [hf]

/-- `deactivate` keeps each row's id. -/
theorem deactivate_map_id (versions : List EntityVersion) (i : Nat) :
    (deactivate versions i).map (fun v => v.id) = versions.map (fun v => v.id) := by
  rw [deactivate, List.map_map]
  exact List.map_congr_left (fun v _ => by by_cases h : v.id = i <;> simp [h])

/-- `deactivate` keeps each row's version number. -/
theorem deactivate_map_version (versions : List EntityVersion) (i : Nat) :
    (deactivate versions i).map (fun v => v.version)
      = versions.map (fun v => v.version) := by
  rw [deactivate, List.map_map]
  exact List.map_congr_left (fun v _ => by by_cases h : v.id = i <;> simp [h])

/-- `deactivate` keeps the number of rows. -/
theorem deactivate_length (versions : List EntityVersion) (i : Nat) :
    (deactivate versions i).length = versions.length := by
  rw [deactivate, List.length_map]

/-- `deactivate` is the identity when the id is absent. -/
theorem deactivate_eq_self {versions : List EntityVersion} {i : Nat}
    (h : ∀ v ∈ versions, v.id ≠ i) : deactivate versions i = versions := by
  rw [deactivate]
  exact (List.map_congr_left (fun v hv => by rw [if_neg (h v hv)]; rfl)).trans
    (List.map_id versions)

/-- `deactivate` passes over a freshly appended row with a different id. -/
theorem deactivate_append_fresh {versions : List EntityVersion}
    {nv : EntityVersion} {i : Nat} (h : nv.id ≠ i) :
    deactivate (versions ++ [nv]) i = deactivate versions i ++ [nv] := by
  simp [deactivate, List.map_append, h]

/-- Filtering by key commutes with `deactivate`. -/
theorem filter_key_deactivate (versions : List EntityVersion) (i : Nat) (k : LKey) :
    (deactivate versions i).filter (fun v => v.logicalKey = k)
      = deactivate (versions.filter (fun v => v.logicalKey = k)) i := by
  simp only [deactivate, List.filter_map]
  congr 1
  exact List.filter_congr (fun v _ => by by_cases h : v.id = i <;> simp [h])

/-- Concatenating the next number onto `1..n`. -/
theorem range'_one_concat (n : Nat) :
    List.range' 1 n ++ [n + 1] = List.range' 1 (n + 1) := by
  have h : List.range' 1 (n + 1) = List.range' 1 n ++ [1 + 1 * n] :=
    List.range'_concat 1 n
  rw [h]
  congr 2
  omega

/-- Key rows of the `createInitial` result store. -/
theorem keyVersions_initial_state (s : VStore) (nv : EntityVersion)
    (R : List Relationship) (m : Nat) (k' : LKey) :
    keyVersions ⟨s.versions ++ [nv], R, m⟩ k'
      = keyVersions s k' ++ if nv.logicalKey = k' then [nv] else [] := by
  simp only [keyVersions, List.filter_append]
  congr 1
  by_cases h : nv.logicalKey = k' <;> simp [h]

/-- Key rows of the `createNextVersion` result store. -/
theorem keyVersions_next_state (s : VStore) (i : Nat) (nv : EntityVersion)
    (R : List Relationship) (m : Nat) (k' : LKey) :
    keyVersions ⟨deactivate s.versions i ++ [nv], R, m⟩ k'
      = deactivate (keyVersions s k') i
          ++ if nv.logicalKey = k' then [nv] else [] := by
  simp only [keyVersions, List.filter_append, filter_key_deactivate]
  congr 1
  by_cases h : nv.logicalKey = k' <;> simp [h]

/-- `VInv` is preserved by a successful `createInitial`. -/
theorem vinv_createInitial {s : VStore} {k : LKey} {c : String}
    (hinv : VInv s) (hf : findActive s k = none) :
    VInv ⟨s.versions ++ [⟨s.nextId, k, 1, c, true⟩],
          s.relationships, s.nextId + 1⟩ := by
  have hempty : keyVersions s k = [] := (findActive_none_iff hinv k).mp hf
  set nv : EntityVersion := ⟨s.nextId, k, 1, c, true⟩ with hnvdef
  set s' : VStore := ⟨s.versions ++ [nv], s.relationships, s.nextId + 1⟩ with hs'def
  have hK : ∀ k', KeyInv s' k' := by
    intro k'
    have hkv : keyVersions s' k'
        = keyVersions s k' ++ if nv.logicalKey = k' then [nv] else [] :=
      keyVersions_initial_state s nv _ _ k'
    by_cases hk' : nv.logicalKey = k'
    · have hkk : k = k' := hk'
      subst hkk
      rw [if_pos hk', hempty, List.nil_append] at hkv
      constructor
      · rw [hkv]
        rfl
      · intro v hv
        rw [hkv, List.mem_singleton] at hv
        subst hv
        rw [hkv]
        simp
    · rw [if_neg hk', List.append_nil] at hkv
      unfold KeyInv
      rw [hkv]
      exact vinv_keyInv hinv k'
  refine ⟨?_, ?_, ?_⟩
  · intro v hv
    rcases List.mem_append.mp hv with h | h
    · exact Nat.lt_succ_of_lt (hinv.1 v h)
    · rw [List.mem_singleton] at h
      subst h
      exact Nat.lt_succ_self _
  · show ((s.versions ++ [nv]).map (fun v => v.id)).Nodup
    rw [List.map_append]
    refine hinv.2.1.append (List.nodup_singleton _) ?_
    intro a ha hb
    rw [List.map_singleton, List.mem_singleton] at hb
    subst hb
    obtain ⟨v, hv, hvid⟩ := List.mem_map.mp ha
    exact absurd hvid (Nat.ne_of_lt (hinv.1 v hv))
  · intro v hv
    exact ⟨(hK v.logicalKey).1, (hK v.logicalKey).2 v (mem_keyVersions.mpr ⟨hv, rfl⟩)⟩

/-- `VInv` is preserved by a successful `createNextVersion`. -/
theorem vinv_createNextVersion {s : VStore} {k : LKey} {d : Option String}
    {act : EntityVersion} (hinv : VInv s) (hf : findActive s k = some act) :
    VInv ⟨deactivate s.versions act.id
            ++ [⟨s.nextId, k, act.version + 1, d.getD act.content, true⟩],
          migrate s.relationships act.id s.nextId, s.nextId + 1⟩ := by
  obtain ⟨hactmem, hactk, hactact⟩ := findActive_some hf
  have hactver := findActive_version hinv hf
  have hactkv : act ∈ keyVersions s k := mem_keyVersions.mpr ⟨hactmem, hactk⟩
  set n := (keyVersions s k).length with hn
  set nv : EntityVersion := ⟨s.nextId, k, act.version + 1, d.getD act.content, true⟩
    with hnvdef
  set s' : VStore := ⟨deactivate s.versions act.id ++ [nv],
    migrate s.relationships act.id s.nextId, s.nextId + 1⟩ with hs'def
  have hki := vinv_keyInv hinv k
  have hndver : ((keyVersions s k).map (fun w => w.version)).Nodup := by
    rw [hki.1]
    exact List.nodup_range' 1 n
  have hK : ∀ k', KeyInv s' k' := by
    intro k'
    have hkv : keyVersions s' k'
        = deactivate (keyVersions s k') act.id
            ++ if nv.logicalKey = k' then [nv] else [] :=
      keyVersions_next_state s act.id nv _ _ k'
    by_cases hk' : nv.logicalKey = k'
    · have hkk : k = k' := hk'
      subst hkk
      rw [if_pos hk'] at hkv
      have hlen' : (keyVersions s' k).length = n + 1 := by
        rw [hkv, List.length_append, deactivate_length]
        simp [hn]
      have hmapL : (keyVersions s' k).map (fun w => w.version)
          = List.range' 1 (n + 1) := by
        rw [hkv, List.map_append, deactivate_map_version, hki.1, ← hn]
        show List.range' 1 n ++ [act.version + 1] = _
        rw [hactver]
        exact range'_one_concat n
      have hiffL : ∀ v ∈ keyVersions s' k,
          (v.isActive = true ↔ v.version = n + 1) := by
        intro v hv
        rw [hkv] at hv
        rcases List.mem_append.mp hv with hvd | hvnv
        · rw [deactivate] at hvd
          obtain ⟨w, hw, hfw⟩ := List.mem_map.mp hvd
          by_cases hwid : w.id = act.id
          · have hweq : w = act :=
              vinv_eq_of_id_eq hinv (mem_keyVersions.mp hw).1 hactmem hwid
            rw [if_pos hwid] at hfw
            subst hfw
            refine iff_of_false (by simp) ?_
            show ¬ w.version = n + 1
            rw [hweq, hactver]
            omega
          · rw [if_neg hwid] at hfw
            subst hfw
            have hvermem : w.version
                ∈ (keyVersions s k).map (fun x => x.version) :=
              List.mem_map_of_mem _ hw
            rw [hki.1, List.mem_range'_1] at hvermem
            have hwver : w.version ≠ n := by
              intro he
              have hinj := List.inj_on_of_nodup_map hndver hw hactkv
                (by rw [he, hactver])
              exact hwid (by rw [hinj])
            refine iff_of_false ?_ ?_
            · intro hact'
              exact hwver ((hki.2 w hw).mp hact')
            · omega
        · rw [List.mem_singleton] at hvnv
          subst hvnv
          refine iff_of_true rfl ?_
          show act.version + 1 = n + 1
          rw [hactver]
      constructor
      · rw [hlen']
        exact hmapL
      · intro v hv
        rw [hlen']
        exact hiffL v hv
    · rw [if_neg hk', List.append_nil] at hkv
      have hid : ∀ v ∈ keyVersions s k', v.id ≠ act.id := by
        intro v hv he
        have hveq := vinv_eq_of_id_eq hinv (mem_keyVersions.mp hv).1 hactmem he
        have hvk : v.logicalKey = k' := (mem_keyVersions.mp hv).2
        rw [hveq, hactk] at hvk
        exact hk' (show nv.logicalKey = k' from hvk)
      rw [deactivate_eq_self hid] at hkv
      unfold KeyInv
      rw [hkv]
      exact vinv_keyInv hinv k'
  refine ⟨?_, ?_, ?_⟩
  · intro v hv
    rcases List.mem_append.mp hv with h | h
    · rw [deactivate] at h
      obtain ⟨w, hw, hfw⟩ := List.mem_map.mp h
      have : v.id = w.id := by
        subst hfw
        by_cases hwid : w.id = act.id <;> simp [hwid]
      rw [this]
      exact Nat.lt_succ_of_lt (hinv.1 w hw)
    · rw [List.mem_singleton] at h
      subst h
      exact Nat.lt_succ_self _
  · show ((deactivate s.versions act.id ++ [nv]).map (fun v => v.id)).Nodup
    rw [List.map_append, deactivate_map_id]
    refine hinv.2.1.append (List.nodup_singleton _) ?_
    intro a ha hb
    rw [List.map_singleton, List.mem_singleton] at hb
    subst hb
    obtain ⟨v, hv, hvid⟩ := List.mem_map.mp ha
    exact absurd hvid (Nat.ne_of_lt (hinv.1 v hv))
  · intro v hv
    exact ⟨(hK v.logicalKey).1, (hK v.logicalKey).2 v (mem_keyVersions.mpr ⟨hv, rfl⟩)⟩

/-- The empty store satisfies the invariant. -/
theorem vinv_empty : VInv emptyVStore :=
  ⟨fun _ hv => absurd hv (List.not_mem_nil _), List.nodup_nil,
   fun _ hv => absurd hv (List.not_mem_nil _)⟩

/-- `VInv` is preserved by `applyVOp` (failed operations roll back). -/
theorem vinv_applyVOp {s : VStore} (hinv : VInv s) (op : VOp) :
    VInv (applyVOp s op) := by
  cases op with
  | init k c =>
    rcases hf : findActive s k with _ | a
    · simp only [applyVOp, createInitial_ok hf]
      exact vinv_createInitial hinv hf
    · simp only [applyVOp, createInitial_dup hf]
      exact hinv
  | next k d =>
    rcases hf : findActive s k with _ | act
    · simp only [applyVOp, createNextVersion_notFound hf]
      exact hinv
    · simp only [applyVOp, createNextVersion_ok hf]
      exact vinv_createNextVersion hinv hf

/-- `VInv` holds along any operation trace. -/
theorem vinv_runVOps (ops : List VOp) :
    ∀ {s : VStore}, VInv s → VInv (runVOps s ops) := by
  induction ops with
  | nil =>
    intro s hinv
    exact hinv
  | cons op rest ih =>
    intro s hinv
    exact ih (vinv_applyVOp hinv op)

/-- A list with pairwise-distinct elements counts an element at most once,
and exactly once when it is a member. -/
theorem countP_eq_one_of_nodup_mem {α : Type} [DecidableEq α] {l : List α} {a : α}
    (h : l.Nodup) (ha : a ∈ l) : l.countP (fun x => x = a) = 1 := by
  induction l with
  | nil => cases ha
  | cons b t ih =>
    rcases List.mem_cons.mp ha with rfl | hmem
    · rw [List.countP_cons]
      have hzero : t.countP (fun x => x = a) = 0 := by
        rw [List.countP_eq_zero]
        intro x hx
        simp only [decide_eq_true_eq]
        rintro rfl
        exact (List.nodup_cons.mp h).1 hx
      simp [hzero]
    · have hbne : ¬ (b = a) := by
        rintro rfl
        exact (List.nodup_cons.mp h).1 hmem
      rw [List.countP_cons, ih (List.nodup_cons.mp h).2 hmem]
      simp [hbne]

/-- Under the invariant, the number of active rows of a key is one when
the key has rows and zero otherwise. -/
theorem vinv_countP_active {s : VStore} (hinv : VInv s) (k : LKey) :
    (keyVersions s k).countP (fun v => v.isActive)
      = if (keyVersions s k).length = 0 then 0 else 1 := by
  have hki := vinv_keyInv hinv k
  set L := keyVersions s k with hL
  set n := L.length with hn
  have hcongr : L.filter (fun v => v.isActive)
      = L.filter (fun v => v.version = n) := by
    refine List.filter_congr ?_
    intro v hv
    have hiff := hki.2 v hv
    by_cases hb : v.isActive = true
    · simp [hb, hiff.mp hb]
    · have hb' : v.isActive = false := by
        revert hb
        cases v.isActive <;> simp
      rw [hb']
      symm
      simp only [decide_eq_false_iff_not]
      intro hc
      exact hb (hiff.mpr hc)
  rw [List.countP_eq_length_filter, hcongr, ← List.countP_eq_length_filter]
  have hmapcount : L.countP (fun v => v.version = n)
      = (L.map (fun v => v.version)).countP (fun m => m = n) := by
    rw [List.countP_map]
    rfl
  rw [hmapcount, hki.1, ← hn]
  by_cases hzero : n = 0
  · simp [hzero]
  · rw [if_neg hzero]
    refine countP_eq_one_of_nodup_mem (List.nodup_range' 1 n) ?_
    rw [List.mem_range'_1]
    omega

/-- C3: along any trace of versioning operations from the empty store,
every logical key's version numbers in row order are exactly `1, …, n`
(gap-free, starting at 1: `createInitial` produces 1 and each successful
`createNextVersion` produces the active version's number plus one); at any
instant at most one version per key is active, and a key that has any rows
has exactly one active version. -/
theorem versioning_gapfree_single_active (ops : List VOp) (k : LKey) :
    ((keyVersions (runVOps emptyVStore ops) k).map (fun w => w.version)
      = List.range' 1 (keyVersions (runVOps emptyVStore ops) k).length) ∧
    ((keyVersions (runVOps emptyVStore ops) k).countP (fun v => v.isActive) ≤ 1) ∧
    (keyVersions (runVOps emptyVStore ops) k ≠ [] →
      (keyVersions (runVOps emptyVStore ops) k).countP (fun v => v.isActive) = 1) := by
  have hinv := vinv_runVOps ops vinv_empty
  have hki := vinv_keyInv hinv k
  have hcount := vinv_countP_active hinv k
  refine ⟨hki.1, ?_, ?_⟩
  · rw [hcount]
    by_cases hz : (keyVersions (runVOps emptyVStore ops) k).length = 0 <;>
      simp [hz]
  · intro hne
    rw [hcount, if_neg ?_]
    intro hz
    exact hne (List.length_eq_zero.mp hz)

/-- C3 witness: the end-to-end scenario "greeting"/"system" — create at
content "A", then update to "B" — ends with versions `[1, 2]` and exactly
one active row. -/
theorem versioning_gapfree_single_active_witness :
    ((keyVersions (runVOps emptyVStore
        [VOp.init ⟨"greeting", "system"⟩ "A",
         VOp.next ⟨"greeting", "system"⟩ (some "B")]) ⟨"greeting", "system"⟩).map
        (fun w => w.version)
      = List.range' 1 (keyVersions (runVOps emptyVStore
        [VOp.init ⟨"greeting", "system"⟩ "A",
         VOp.next ⟨"greeting", "system"⟩ (some "B")]) ⟨"greeting", "system"⟩).length) ∧
    ((keyVersions (runVOps emptyVStore
        [VOp.init ⟨"greeting", "system"⟩ "A",
         VOp.next ⟨"greeting", "system"⟩ (some "B")]) ⟨"greeting", "system"⟩).countP
        (fun v => v.isActive) ≤ 1) ∧
    (keyVersions (runVOps emptyVStore
        [VOp.init ⟨"greeting", "system"⟩ "A",
         VOp.next ⟨"greeting", "system"⟩ (some "B")]) ⟨"greeting", "system"⟩ ≠ [] →
      (keyVersions (runVOps emptyVStore
        [VOp.init ⟨"greeting", "system"⟩ "A",
         VOp.next ⟨"greeting", "system"⟩ (some "B")]) ⟨"greeting", "system"⟩).countP
        (fun v => v.isActive) = 1) :=
  versioning_gapfree_single_active
    [VOp.init ⟨"greeting", "system"⟩ "A",
     VOp.next ⟨"greeting", "system"⟩ (some "B")] ⟨"greeting", "system"⟩

/-- C8: `createInitial` fails with `DuplicateKey` exactly when an active
version already exists for the logical key — `DuplicateKey` is its only
possible error — and on success the produced version is number 1, active,
and carries the supplied content for the supplied key. -/
theorem createInitial_contract (s : VStore) (k : LKey) (c : String) :
    (createInitial s k c = .error .DuplicateKey ↔
      ∃ v ∈ s.versions, v.logicalKey = k ∧ v.isActive = true) ∧
    (∀ e, createInitial s k c = .error e → e = .DuplicateKey) ∧
    (∀ nv s', createInitial s k c = .ok (nv, s') →
      nv.version = 1 ∧ nv.isActive = true ∧ nv.content = c ∧ nv.logicalKey = k) := by
  rcases hf : findActive s k with _ | a
  · refine ⟨?_, ?_, ?_⟩
    · rw [createInitial_ok hf]
      constructor
      · intro h
        cases h
      · rintro ⟨v, hv, hvk, hva⟩
        exact absurd ⟨hvk, hva⟩ (findActive_none hf v hv)
    · intro e he
      rw [createInitial_ok hf] at he
      cases he
    · intro nv s' h
      rw [createInitial_ok hf] at h
      simp only [Except.ok.injEq, Prod.mk.injEq] at h
      obtain ⟨h1, _⟩ := h
      subst h1
      exact ⟨rfl, rfl, rfl, rfl⟩
  · obtain ⟨hmem, hk, hact⟩ := findActive_some hf
    refine ⟨?_, ?_, ?_⟩
    · rw [createInitial_dup hf]
      exact iff_of_true rfl ⟨a, hmem, hk, hact⟩
    · intro e he
      rw [createInitial_dup hf] at he
      injection he with he
      exact he.symm
    · intro nv s' h
      rw [createInitial_dup hf] at h
      cases h

/-- C8 witness: creating "greeting"/"system" at content "A" in the empty
store succeeds with version 1, active, content "A". -/
theorem createInitial_contract_witness :
    (createInitial emptyVStore ⟨"greeting", "system"⟩ "A" = .error .DuplicateKey ↔
      ∃ v ∈ emptyVStore.versions,
        v.logicalKey = ⟨"greeting", "system"⟩ ∧ v.isActive = true) ∧
    (∀ e, createInitial emptyVStore ⟨"greeting", "system"⟩ "A" = .error e →
      e = .DuplicateKey) ∧
    (∀ nv s', createInitial emptyVStore ⟨"greeting", "system"⟩ "A" = .ok (nv, s') →
      nv.version = 1 ∧ nv.isActive = true ∧ nv.content = "A" ∧
      nv.logicalKey = ⟨"greeting", "system"⟩) :=
  createInitial_contract emptyVStore ⟨"greeting", "system"⟩ "A"

/-- C1: when `createNextVersion` succeeds from an invariant-satisfying
store, the new version's number is the superseded active version's plus
one; afterwards zero relationship rows reference the superseded version,
the rows correspond one-to-one to the old rows with `consumerId` and `slot`
unchanged — every row that referenced the old version (for every consumer
simultaneously) now references the new version, others are untouched — and
the total relationship count is identical. -/
theorem migration_completeness (s s' : VStore) (k : LKey) (d : Option String)
    (nv act : EntityVersion) (hinv : VInv s)
    (hact : findActive s k = some act)
    (h : createNextVersion s k d = .ok (nv, s')) :
    nv.version = act.version + 1 ∧
    s'.relationships.length = s.relationships.length ∧
    (∀ r ∈ s'.relationships, r.versionId ≠ act.id) ∧
    List.Forall₂ (fun r r' =>
      r'.consumerId = r.consumerId ∧ r'.slot = r.slot ∧
      r'.versionId = if r.versionId = act.id then nv.id else r.versionId)
      s.relationships s'.relationships := by
  rw [createNextVersion_ok hact] at h
  simp only [Except.ok.injEq, Prod.mk.injEq] at h
  obtain ⟨h1, h2⟩ := h
  subst h1
  subst h2
  have hfresh : act.id ≠ s.nextId :=
    Nat.ne_of_lt (hinv.1 act (findActive_some hact).1)
  refine ⟨rfl, ?_, ?_, ?_⟩
  · show (migrate s.relationships act.id s.nextId).length = _
    rw [migrate, List.length_map]
  · intro r hr
    rw [show (⟨deactivate s.versions act.id
          ++ [⟨s.nextId, k, act.version + 1, d.getD act.content, true⟩],
        migrate s.relationships act.id s.nextId, s.nextId + 1⟩ : VStore).relationships
        = migrate s.relationships act.id s.nextId from rfl, migrate] at hr
    obtain ⟨r0, hr0, hfr⟩ := List.mem_map.mp hr
    subst hfr
    by_cases h0 : r0.versionId = act.id
    · simp only [if_pos h0]
      exact Ne.symm hfresh
    · simp only [if_neg h0]
      exact h0
  · show List.Forall₂ _ s.relationships (migrate s.relationships act.id s.nextId)
    rw [migrate, List.forall₂_map_right_iff, List.forall₂_same]
    intro r hr
    by_cases h0 : r.versionId = act.id <;> simp [h0]

/-- C1 witness: three distinct consumers all referencing version 1 of
"greeting"/"system" are all migrated to version 2 by one
`createNextVersion` call, with count 3 preserved. -/
theorem migration_completeness_witness :
    (2 : Nat) = 1 + 1 ∧
    ([(⟨10, "system", 1⟩ : Relationship), ⟨11, "system", 1⟩, ⟨12, "system", 1⟩]).length
      = ([(⟨10, "system", 0⟩ : Relationship), ⟨11, "system", 0⟩, ⟨12, "system", 0⟩]).length ∧
    (∀ r ∈ [(⟨10, "system", 1⟩ : Relationship), ⟨11, "system", 1⟩, ⟨12, "system", 1⟩],
        r.versionId ≠ 0) ∧
    List.Forall₂ (fun r r' =>
      r'.consumerId = r.consumerId ∧ r'.slot = r.slot ∧
      r'.versionId = if r.versionId = 0 then 1 else r.versionId)
      [(⟨10, "system", 0⟩ : Relationship), ⟨11, "system", 0⟩, ⟨12, "system", 0⟩]
      [(⟨10, "system", 1⟩ : Relationship), ⟨11, "system", 1⟩, ⟨12, "system", 1⟩] := by
  have hinv : VInv ⟨[⟨0, ⟨"greeting", "system"⟩, 1, "A", true⟩],
      [⟨10, "system", 0⟩, ⟨11, "system", 0⟩, ⟨12, "system", 0⟩], 1⟩ := by
    refine ⟨?_, ?_, ?_⟩ <;> decide
  exact migration_completeness
    ⟨[⟨0, ⟨"greeting", "system"⟩, 1, "A", true⟩],
     [⟨10, "system", 0⟩, ⟨11, "system", 0⟩, ⟨12, "system", 0⟩], 1⟩
    ⟨[⟨0, ⟨"greeting", "system"⟩, 1, "A", false⟩,
      ⟨1, ⟨"greeting", "system"⟩, 2, "B", true⟩],
     [⟨10, "system", 1⟩, ⟨11, "system", 1⟩, ⟨12, "system", 1⟩], 2⟩
    ⟨"greeting", "system"⟩ (some "B")
    ⟨1, ⟨"greeting", "system"⟩, 2, "B", true⟩
    ⟨0, ⟨"greeting", "system"⟩, 1, "A", true⟩ hinv rfl rfl

/-- One `createNextVersion` call (successful or rolled back) preserves the
invariant and keeps every pre-existing row up to its `isActive` flag. -/
theorem frame_applyNext {s : VStore} (hinv : VInv s) (k : LKey) (d : Option String) :
    VInv (match createNextVersion s k d with
          | .ok (_, t) => t
          | .error _ => s) ∧
    ∀ v ∈ s.versions,
      ∃ v' ∈ (match createNextVersion s k d with
              | .ok (_, t) => t
              | .error _ => s).versions,
        v'.id = v.id ∧ v'.logicalKey = v.logicalKey ∧
        v'.version = v.version ∧ v'.content = v.content := by
  rcases hf : findActive s k with _ | act
  · simp only [createNextVersion_notFound hf]
    exact ⟨hinv, fun v hv => ⟨v, hv, rfl, rfl, rfl, rfl⟩⟩
  · simp only [createNextVersion_ok hf]
    refine ⟨vinv_createNextVersion hinv hf, ?_⟩
    intro v hv
    refine ⟨if v.id = act.id then { v with isActive := false } else v, ?_, ?_, ?_, ?_, ?_⟩
    · apply List.mem_append_left
      rw [deactivate]
      exact List.mem_map_of_mem _ hv
    · by_cases h0 : v.id = act.id <;> simp [h0]
    · by_cases h0 : v.id = act.id <;> simp [h0]
    · by_cases h0 : v.id = act.id <;> simp [h0]
    · by_cases h0 : v.id = act.id <;> simp [h0]

/-- A sequence of `createNextVersion` calls preserves the invariant and
keeps every pre-existing row up to its `isActive` flag. -/
theorem frame_runNexts (calls : List (LKey × Option String)) :
    ∀ {s : VStore}, VInv s →
      VInv (runNexts s calls) ∧
      ∀ v ∈ s.versions, ∃ v' ∈ (runNexts s calls).versions,
        v'.id = v.id ∧ v'.logicalKey = v.logicalKey ∧
        v'.version = v.version ∧ v'.content = v.content := by
  induction calls with
  | nil =>
    intro s hinv
    exact ⟨hinv, fun v hv => ⟨v, hv, rfl, rfl, rfl, rfl⟩⟩
  | cons c rest ih =>
    intro s hinv
    have hstep := frame_applyNext hinv c.1 c.2
    have hrest := ih hstep.1
    refine ⟨hrest.1, ?_⟩
    intro v hv
    obtain ⟨v1, hv1, h1, h2, h3, h4⟩ := hstep.2 v hv
    obtain ⟨v2, hv2, g1, g2, g3, g4⟩ := hrest.2 v1 hv1
    exact ⟨v2, hv2, by rw [g1, h1], by rw [g2, h2], by rw [g3, h3], by rw [g4, h4]⟩

/-- With unique ids, a present row is the one `find?` returns for its id. -/
theorem getByVersionId_of_mem {s : VStore} {v : EntityVersion}
    (hid : (s.versions.map (fun w => w.id)).Nodup) (hv : v ∈ s.versions) :
    getByVersionId s v.id = .ok v := by
  rw [getByVersionId,
    find?_eq_some_of_mem_of_nodup_map (fun w => w.id) s.versions v hid hv]

/-- C7: `createNextVersion` never mutates a superseded version in place.
After any number of further `createNextVersion` calls, every pre-existing
row is still returned by `getByVersionId` under its original id with its
id, logical key, version number and content unchanged (only `isActive` may
differ); the new version is a distinct row whose id collides with no
existing row; and the superseded row is still fetched by its id — active no
longer, everything else intact — showing `getByVersionId` answers
regardless of active status. -/
theorem version_immutability (s s' : VStore) (k : LKey) (d : Option String)
    (nv act : EntityVersion) (hinv : VInv s)
    (hact : findActive s k = some act)
    (h : createNextVersion s k d = .ok (nv, s')) :
    (∀ calls : List (LKey × Option String), ∀ v ∈ s.versions,
      ∃ v', getByVersionId (runNexts s calls) v.id = .ok v' ∧
        v'.id = v.id ∧ v'.logicalKey = v.logicalKey ∧
        v'.version = v.version ∧ v'.content = v.content) ∧
    (∀ v ∈ s.versions, v.id ≠ nv.id) ∧
    getByVersionId s' act.id = .ok { act with isActive := false } := by
  have hactmem := (findActive_some hact).1
  rw [createNextVersion_ok hact] at h
  simp only [Except.ok.injEq, Prod.mk.injEq] at h
  obtain ⟨h1, h2⟩ := h
  refine ⟨?_, ?_, ?_⟩
  · intro calls v hv
    have hframe := frame_runNexts calls hinv
    obtain ⟨v', hv', g1, g2, g3, g4⟩ := hframe.2 v hv
    refine ⟨v', ?_, g1, g2, g3, g4⟩
    have := getByVersionId_of_mem hframe.1.2.1 hv'
    rwa [g1] at this
  · intro v hv
    rw [← h1]
    exact Nat.ne_of_lt (hinv.1 v hv)
  · subst h2
    have hinv' : VInv ⟨deactivate s.versions act.id
            ++ [⟨s.nextId, k, act.version + 1, d.getD act.content, true⟩],
          migrate s.relationships act.id s.nextId, s.nextId + 1⟩ :=
      vinv_createNextVersion hinv hact
    have hmem : { act with isActive := false }
        ∈ (⟨deactivate s.versions act.id
              ++ [⟨s.nextId, k, act.version + 1, d.getD act.content, true⟩],
            migrate s.relationships act.id s.nextId, s.nextId + 1⟩ : VStore).versions := by
      apply List.mem_append_left
      rw [deactivate]
      have := List.mem_map_of_mem
        (fun v => if v.id = act.id then { v with isActive := false } else v) hactmem
      simpa using this
    have := getByVersionId_of_mem hinv'.2.1 hmem
    simpa using this

/-- C7 witness: updating the one-version store for "greeting"/"system"
keeps version 1 fetchable by id with content "A" and `isActive = false`,
and gives the new row a fresh id. -/
theorem version_immutability_witness :
    (∀ calls : List (LKey × Option String),
      ∀ v ∈ (⟨[⟨0, ⟨"greeting", "system"⟩, 1, "A", true⟩], [], 1⟩ : VStore).versions,
        ∃ v', getByVersionId
            (runNexts ⟨[⟨0, ⟨"greeting", "system"⟩, 1, "A", true⟩], [], 1⟩ calls)
            v.id = .ok v' ∧
          v'.id = v.id ∧ v'.logicalKey = v.logicalKey ∧
          v'.version = v.version ∧ v'.content = v.content) ∧
    (∀ v ∈ (⟨[⟨0, ⟨"greeting", "system"⟩, 1, "A", true⟩], [], 1⟩ : VStore).versions,
      v.id ≠ 1) ∧
    getByVersionId
        ⟨[⟨0, ⟨"greeting", "system"⟩, 1, "A", false⟩,
          ⟨1, ⟨"greeting", "system"⟩, 2, "B", true⟩], [], 2⟩ 0
      = .ok ⟨0, ⟨"greeting", "system"⟩, 1, "A", false⟩ := by
  have hinv : VInv ⟨[⟨0, ⟨"greeting", "system"⟩, 1, "A", true⟩], [], 1⟩ := by
    refine ⟨?_, ?_, ?_⟩ <;> decide
  exact version_immutability
    ⟨[⟨0, ⟨"greeting", "system"⟩, 1, "A", true⟩], [], 1⟩
    ⟨[⟨0, ⟨"greeting", "system"⟩, 1, "A", false⟩,
      ⟨1, ⟨"greeting", "system"⟩, 2, "B", true⟩], [], 2⟩
    ⟨"greeting", "system"⟩ (some "B")
    ⟨1, ⟨"greeting", "system"⟩, 2, "B", true⟩
    ⟨0, ⟨"greeting", "system"⟩, 1, "A", true⟩ hinv rfl rfl

/-- A three-step transaction either rolls back to the input state (when any
step fails) or commits the full composite (when none fails). -/
theorem commitOrRollback_three {σ : Type} (s : σ) (f1 f2 f3 : Bool) (a b c : σ → σ) :
    ((f1 || f2 || f3) = true →
      commitOrRollback s [txStep f1 a, txStep f2 b, txStep f3 c] = s) ∧
    ((f1 || f2 || f3) = false →
      commitOrRollback s [txStep f1 a, txStep f2 b, txStep f3 c] = c (b (a s))) := by
  cases f1 <;> cases f2 <;> cases f3 <;>
    simp [commitOrRollback, runTransaction, txStep]

/-- The failure-free composite of the delete steps is exactly the
`deleteOwnershipLink` result state. -/
theorem deleteLinkTx_commit (t : OStore) (l : OwnershipLink) :
    dependentsDeleteStep l (ownerDeleteStep l (deleteLinkStep l t))
      = if remainingCount t l = 0 then
          (⟨t.owners.filter (fun x => x ≠ l.ownerId), linksAfterDelete t l,
            t.dependents.filter (fun d => d.ownerId ≠ l.ownerId)⟩ : OStore)
        else ⟨t.owners, linksAfterDelete t l, t.dependents⟩ := by
  by_cases hrc : remainingCount t l = 0 <;>
    · simp only [remainingCount] at hrc
      simp [dependentsDeleteStep, ownerDeleteStep, deleteLinkStep, ownerLinks,
        remainingCount, hrc]

/-- C4: every write operation of the engine is all-or-nothing.  Run through
the Transaction Coordinator with failures injected into any of its steps,
`createNextVersion` leaves the store untouched whenever a step fails and
commits exactly its specified result when none does, and any visible state
containing the new version row already has every relationship migrated; the
same holds for `deleteOwnershipLink`: rollback on any step failure, the
specified result on none, and whenever the Owner has disappeared, the
deleted link and the Owner's dependents are gone with it — no partial
effect is ever visible. -/
theorem tx_all_or_nothing
    (s : VStore) (k : LKey) (d : Option String) (f1 f2 f3 : Bool)
    (t : OStore) (ident scopeId : Nat) (g1 g2 g3 : Bool)
    (hinv : VInv s) :
    ((f1 || f2 || f3) = true → nextVersionTx s k d f1 f2 f3 = s) ∧
    ((f1 || f2 || f3) = false → ∀ act, findActive s k = some act →
      createNextVersion s k d
        = .ok (⟨s.nextId, k, act.version + 1, d.getD act.content, true⟩,
               nextVersionTx s k d f1 f2 f3)) ∧
    (∀ v ∈ (nextVersionTx s k d f1 f2 f3).versions, v.id = s.nextId →
      ∀ act, findActive s k = some act →
        (nextVersionTx s k d f1 f2 f3).relationships
          = migrate s.relationships act.id s.nextId) ∧
    ((g1 || g2 || g3) = true → deleteLinkTx t ident scopeId g1 g2 g3 = t) ∧
    ((g1 || g2 || g3) = false → ∀ l, resolveLink t ident scopeId = some l →
      deleteOwnershipLink t ident scopeId
        = .ok (l, deleteLinkTx t ident scopeId g1 g2 g3)) ∧
    (∀ l, resolveLink t ident scopeId = some l →
      l.ownerId ∈ t.owners →
      l.ownerId ∉ (deleteLinkTx t ident scopeId g1 g2 g3).owners →
      (∀ d2 ∈ (deleteLinkTx t ident scopeId g1 g2 g3).dependents,
        d2.ownerId ≠ l.ownerId) ∧
      (∀ l2 ∈ (deleteLinkTx t ident scopeId g1 g2 g3).links, l2.id ≠ l.id)) := by
  have hVparts :
      ((f1 || f2 || f3) = true → nextVersionTx s k d f1 f2 f3 = s) ∧
      ((f1 || f2 || f3) = false → ∀ act, findActive s k = some act →
        createNextVersion s k d
          = .ok (⟨s.nextId, k, act.version + 1, d.getD act.content, true⟩,
                 nextVersionTx s k d f1 f2 f3)) ∧
      (∀ v ∈ (nextVersionTx s k d f1 f2 f3).versions, v.id = s.nextId →
        ∀ act, findActive s k = some act →
          (nextVersionTx s k d f1 f2 f3).relationships
            = migrate s.relationships act.id s.nextId) := by
    rcases hf : findActive s k with _ | act
    · have htx : nextVersionTx s k d f1 f2 f3 = s := by
        unfold nextVersionTx
        rw [hf]
      refine ⟨fun _ => htx, ?_, ?_⟩
      · intro _ act hact
        cases hact
      · intro v _ _ act hact
        cases hact
    · have hfresh : act.id ≠ s.nextId :=
        Nat.ne_of_lt (hinv.1 act (findActive_some hf).1)
      have hfail : (f1 || f2 || f3) = true → nextVersionTx s k d f1 f2 f3 = s := by
        intro h0
        unfold nextVersionTx
        rw [hf]
        exact (commitOrRollback_three s f1 f2 f3 _ _ _).1 h0
      have hcommit : (f1 || f2 || f3) = false →
          nextVersionTx s k d f1 f2 f3
            = ⟨deactivate s.versions act.id
                  ++ [⟨s.nextId, k, act.version + 1, d.getD act.content, true⟩],
               migrate s.relationships act.id s.nextId, s.nextId + 1⟩ := by
        intro h0
        unfold nextVersionTx
        rw [hf]
        refine ((commitOrRollback_three s f1 f2 f3 _ _ _).2 h0).trans ?_
        show migrateStep act.id s.nextId
            (deactivateStep act.id (insertVersionStep
              ⟨s.nextId, k, act.version + 1, d.getD act.content, true⟩ s)) = _
        unfold migrateStep deactivateStep insertVersionStep
        rw [deactivate_append_fresh
          (show (⟨s.nextId, k, act.version + 1, d.getD act.content, true⟩ :
            EntityVersion).id ≠ act.id from Ne.symm hfresh)]
      refine ⟨hfail, ?_, ?_⟩
      · intro h0 act' hact'
        injection hact' with hact'
        subst hact'
        rw [createNextVersion_ok hf, hcommit h0]
      · intro v hv hvid act' hact'
        injection hact' with hact'
        subst hact'
        rcases hmask : (f1 || f2 || f3) with _ | _
        · rw [hcommit hmask]
        · rw [hfail hmask] at hv
          exact absurd hvid (Nat.ne_of_lt (hinv.1 v hv))
  have hOparts :
      ((g1 || g2 || g3) = true → deleteLinkTx t ident scopeId g1 g2 g3 = t) ∧
      ((g1 || g2 || g3) = false → ∀ l, resolveLink t ident scopeId = some l →
        deleteOwnershipLink t ident scopeId
          = .ok (l, deleteLinkTx t ident scopeId g1 g2 g3)) ∧
      (∀ l, resolveLink t ident scopeId = some l →
        l.ownerId ∈ t.owners →
        l.ownerId ∉ (deleteLinkTx t ident scopeId g1 g2 g3).owners →
        (∀ d2 ∈ (deleteLinkTx t ident scopeId g1 g2 g3).dependents,
          d2.ownerId ≠ l.ownerId) ∧
        (∀ l2 ∈ (deleteLinkTx t ident scopeId g1 g2 g3).links, l2.id ≠ l.id)) := by
    rcases hr : resolveLink t ident scopeId with _ | l
    · have htx : deleteLinkTx t ident scopeId g1 g2 g3 = t := by
        unfold deleteLinkTx
        rw [hr]
      refine ⟨fun _ => htx, ?_, ?_⟩
      · intro _ l hl
        cases hl
      · intro l hl
        cases hl
    · have hfail : (g1 || g2 || g3) = true →
          deleteLinkTx t ident scopeId g1 g2 g3 = t := by
        intro h0
        unfold deleteLinkTx
        rw [hr]
        exact (commitOrRollback_three t g1 g2 g3 _ _ _).1 h0
      have hcommit : (g1 || g2 || g3) = false →
          deleteLinkTx t ident scopeId g1 g2 g3
            = dependentsDeleteStep l (ownerDeleteStep l (deleteLinkStep l t)) := by
        intro h0
        unfold deleteLinkTx
        rw [hr]
        exact (commitOrRollback_three t g1 g2 g3 _ _ _).2 h0
      refine ⟨hfail, ?_, ?_⟩
      · intro h0 l' hl'
        injection hl' with hl'
        subst hl'
        rw [deleteOwnershipLink_eq_of_resolve hr, hcommit h0, deleteLinkTx_commit]
        by_cases hrc : remainingCount t l = 0
        · rw [if_pos hrc, if_pos hrc]
        · rw [if_neg hrc, if_neg hrc]
      · intro l' hl' hin hout
        injection hl' with hl'
        subst hl'
        rcases hmask : (g1 || g2 || g3) with _ | _
        · rw [hcommit hmask, deleteLinkTx_commit] at hout ⊢
          by_cases hrc : remainingCount t l = 0
          · rw [if_pos hrc]
            constructor
            · intro d2 hd2
              have := (List.mem_filter.mp hd2).2
              simpa using this
            · intro l2 hl2
              have := (List.mem_filter.mp hl2).2
              simpa using this
          · rw [if_neg hrc] at hout
            exact absurd hin hout
        · rw [hfail hmask] at hout
          exact absurd hin hout
  exact ⟨hVparts.1, hVparts.2.1, hVparts.2.2,
    hOparts.1, hOparts.2.1, hOparts.2.2⟩

/-- C4 witness: the transaction theorem applied to a concrete one-version
store and a concrete one-link owner store, with no injected failures. -/
theorem tx_all_or_nothing_witness :
    ((false || false || false) = true →
      nextVersionTx ⟨[⟨0, ⟨"greeting", "system"⟩, 1, "A", true⟩], [⟨10, "system", 0⟩], 1⟩
        ⟨"greeting", "system"⟩ (some "B") false false false
        = ⟨[⟨0, ⟨"greeting", "system"⟩, 1, "A", true⟩], [⟨10, "system", 0⟩], 1⟩) ∧
    ((false || false || false) = false → ∀ act,
      findActive ⟨[⟨0, ⟨"greeting", "system"⟩, 1, "A", true⟩], [⟨10, "system", 0⟩], 1⟩
          ⟨"greeting", "system"⟩ = some act →
      createNextVersion ⟨[⟨0, ⟨"greeting", "system"⟩, 1, "A", true⟩],
          [⟨10, "system", 0⟩], 1⟩ ⟨"greeting", "system"⟩ (some "B")
        = .ok (⟨1, ⟨"greeting", "system"⟩, act.version + 1, (some "B").getD act.content, true⟩,
            nextVersionTx ⟨[⟨0, ⟨"greeting", "system"⟩, 1, "A", true⟩],
              [⟨10, "system", 0⟩], 1⟩ ⟨"greeting", "system"⟩ (some "B") false false false)) ∧
    (∀ v ∈ (nextVersionTx ⟨[⟨0, ⟨"greeting", "system"⟩, 1, "A", true⟩],
          [⟨10, "system", 0⟩], 1⟩ ⟨"greeting", "system"⟩ (some "B") false false false).versions,
      v.id = 1 → ∀ act,
      findActive ⟨[⟨0, ⟨"greeting", "system"⟩, 1, "A", true⟩], [⟨10, "system", 0⟩], 1⟩
          ⟨"greeting", "system"⟩ = some act →
      (nextVersionTx ⟨[⟨0, ⟨"greeting", "system"⟩, 1, "A", true⟩],
          [⟨10, "system", 0⟩], 1⟩ ⟨"greeting", "system"⟩ (some "B") false false false).relationships
        = migrate [⟨10, "system", 0⟩] act.id 1) ∧
    ((false || false || false) = true →
      deleteLinkTx ⟨[7], [⟨1, 7, 50⟩], [⟨100, 7⟩]⟩ 1 50 false false false
        = ⟨[7], [⟨1, 7, 50⟩], [⟨100, 7⟩]⟩) ∧
    ((false || false || false) = false → ∀ l,
      resolveLink ⟨[7], [⟨1, 7, 50⟩], [⟨100, 7⟩]⟩ 1 50 = some l →
      deleteOwnershipLink ⟨[7], [⟨1, 7, 50⟩], [⟨100, 7⟩]⟩ 1 50
        = .ok (l, deleteLinkTx ⟨[7], [⟨1, 7, 50⟩], [⟨100, 7⟩]⟩ 1 50 false false false)) ∧
    (∀ l, resolveLink ⟨[7], [⟨1, 7, 50⟩], [⟨100, 7⟩]⟩ 1 50 = some l →
      l.ownerId ∈ [7] →
      l.ownerId ∉ (deleteLinkTx ⟨[7], [⟨1, 7, 50⟩], [⟨100, 7⟩]⟩ 1 50 false false false).owners →
      (∀ d2 ∈ (deleteLinkTx ⟨[7], [⟨1, 7, 50⟩], [⟨100, 7⟩]⟩ 1 50 false false false).dependents,
        d2.ownerId ≠ l.ownerId) ∧
      (∀ l2 ∈ (deleteLinkTx ⟨[7], [⟨1, 7, 50⟩], [⟨100, 7⟩]⟩ 1 50 false false false).links,
        l2.id ≠ l.id)) := by
  have hinv : VInv ⟨[⟨0, ⟨"greeting", "system"⟩, 1, "A", true⟩], [⟨10, "system", 0⟩], 1⟩ := by
    refine ⟨?_, ?_, ?_⟩ <;> decide
  exact tx_all_or_nothing
    ⟨[⟨0, ⟨"greeting", "system"⟩, 1, "A", true⟩], [⟨10, "system", 0⟩], 1⟩
    ⟨"greeting", "system"⟩ (some "B") false false false
    ⟨[7], [⟨1, 7, 50⟩], [⟨100, 7⟩]⟩ 1 50 false false false hinv
